import Mathlib

/-!
Verification of the Triton-Puzzles-Lite kernels (src/puzzles.py).

The kernels are shallowly embedded over exact rational arithmetic.  A flat
tensor buffer is a function `ℕ → ℚ`; `tl.load(ptr + idx, mask)` becomes
`mload` (the Triton interpreter substitutes `0` at masked-off positions when
no `other` argument is given); a `tl.store` instruction becomes a list of
`Wr` records (index, mask, value) and `commit` folds such a list into a
buffer, writing only at mask-true positions.  A grid launch is the
concatenation (`flatRange`) of the write lists of all program instances;
instance order is irrelevant for the kernels studied here because their
stores are disjoint, which every proof below establishes explicitly.

Floating point is modelled by exact rationals: `float("-inf")` (used as the
initial running maximum of the streaming softmax kernels) is modelled by
`none : Option ℚ`, and the map `t ↦ exp2(log2_e * t)` applied by the kernels
(and the spec's `exp`) is abstracted as a function `E : ℚ → ℚ`; `fexpSub`
models `exp2(log2_e * (m - b))` for a possibly `-inf` value `m`, with
`exp2(-inf) = 0` exactly as IEEE evaluation gives.  `tl.dot` is modelled as
the exact (batched) matrix product.
-/

namespace Puzzles

/-- A flat tensor buffer, as the Triton kernels see memory through a base
pointer: rationals model the exact content of a `float32`/`int32` array. -/
abbrev Buf : Type := ℕ → ℚ

/-- Masked load of one element: `tl.load(ptr + i, mask)` yields the stored
value where the mask is true and the fill value `0` where it is false
(the interpreter's default `other`). -/
def mload (b : Buf) (i : ℕ) (m : Bool) : ℚ :=
  if m then b i else 0

/-- One element of a masked store: target index, mask bit and stored value. -/
structure Wr where
  idx : ℕ
  msk : Bool
  val : ℚ

/-- Committing a list of masked store elements to a buffer:
`tl.store(ptr + idx, val, mask)` writes `val` at `idx` only where the mask
is true, leaving every other position of the buffer untouched. -/
def commit (b : Buf) (ws : List Wr) : Buf :=
  ws.foldl (fun acc w => fun j => if w.msk && (w.idx == j) then w.val else acc j) b

/-- Ceiling division, the number of program instances Triton launches for an
axis of extent `n` with block size `b` (`triton.cdiv`). -/
def cdiv (n b : ℕ) : ℕ := (n + b - 1) / b

/-- Concatenation of the write lists of `n` program instances (or of the `n`
iterations of a store loop), in index order. -/
def flatRange {α : Type} (f : ℕ → List α) : ℕ → List α
  | 0 => []
  | n + 1 => flatRange f n ++ f n

/-- Maximum of the first `B` entries of a tile row, seeded with entry `0`:
models `vals.max(1)` over a block of size `B ≥ 1`. -/
def tileMax (f : ℕ → ℚ) : ℕ → ℚ
  | 0 => f 0
  | n + 1 => max (tileMax f n) (f n)

/-- Float maximum against a running maximum that may still be `-inf`
(modelled as `none`): models `tl.maximum(global_maxs, chunk_max)`. -/
def fmax : Option ℚ → ℚ → ℚ
  | none, b => b
  | some a, b => max a b

/-- Models `exp2(log2_e * (m - b))` where the running maximum `m` may be
`-inf`: IEEE gives `exp2(-inf - b) = exp2(-inf) = 0`, and otherwise the
abstracted exponential `E` is applied to the finite difference. -/
def fexpSub (E : ℚ → ℚ) : Option ℚ → ℚ → ℚ
  | none, _ => 0
  | some a, b => E (a - b)

/-! ### Puzzle 1: `add_kernel` (src/puzzles.py:213-220)

The kernel loads `arange(0, B0)` without a mask, adds the constant `10.0`
and stores the result unmasked.  The grid has `cdiv N0 B0` instances but the
kernel ignores its program id, so every instance produces the same writes. -/

/-- Write list of one `add_kernel` instance: `z[l] = x[l] + 10` for
`l < B0`, unmasked. -/
def add_kernel_writes (x : Buf) (B0 : ℕ) : List Wr :=
  (List.range B0).map fun l => ⟨l, true, mload x l true + 10⟩

/-- Full run of `add_kernel` over its grid, committed onto the output
buffer `z`. -/
def add_kernel_run (x z : Buf) (N0 B0 : ℕ) : Buf :=
  commit z (flatRange (fun _ => add_kernel_writes x B0) (cdiv N0 B0))

/-! ### Puzzle 2: `add_mask2_kernel` (src/puzzles.py:238-246) -/

/-- Write list of one `add_mask2_kernel` instance `g`: indices
`g * B0 + arange(0, B0)`, load and store masked by `idx < N0`. -/
def add_mask2_writes (x : Buf) (N0 B0 g : ℕ) : List Wr :=
  (List.range B0).map fun l =>
    ⟨g * B0 + l, decide (g * B0 + l < N0),
      mload x (g * B0 + l) (decide (g * B0 + l < N0)) + 10⟩

/-- Full run of `add_mask2_kernel` over its `cdiv N0 B0` instances. -/
def add_mask2_run (x z : Buf) (N0 B0 : ℕ) : Buf :=
  commit z (flatRange (add_mask2_writes x N0 B0) (cdiv N0 B0))

/-! ### Puzzle 7: `sum_kernel` (src/puzzles.py:445-463)

Row-major layout of the input: element `(i, j)` lives at flat index
`i * T + j`.  The reduced axis is streamed in chunks of `B1`; loads are
masked at both the kept axis (`i < N0`) and the streamed axis (`j < T`). -/

/-- Accumulated sum of `sum_kernel` for output row `i`: the loop
`sums += vals.sum(axis=1)` over all `cdiv T B1` chunks of masked loads. -/
def sum_kernel_acc (x : Buf) (N0 T B1 i : ℕ) : ℚ :=
  ∑ c ∈ Finset.range (cdiv T B1), ∑ l ∈ Finset.range B1,
    mload x (i * T + (c * B1 + l)) (decide (i < N0) && decide (c * B1 + l < T))

/-- Write list of one `sum_kernel` instance `g`: one output element per
`lb < B0`, store masked by `idx < N0`. -/
def sum_kernel_writes (x : Buf) (N0 T B0 B1 g : ℕ) : List Wr :=
  (List.range B0).map fun lb =>
    ⟨g * B0 + lb, decide (g * B0 + lb < N0), sum_kernel_acc x N0 T B1 (g * B0 + lb)⟩

/-- Full run of `sum_kernel` over its `cdiv N0 B0` instances. -/
def sum_kernel_run (x z : Buf) (N0 T B0 B1 : ℕ) : Buf :=
  commit z (flatRange (sum_kernel_writes x N0 T B0 B1) (cdiv N0 B0))

/-- Reference `sum_spec` (src/puzzles.py:441-442): per-row sum `x.sum(1)` of
a row-major `N0 × T` matrix. -/
def sum_spec (x : Buf) (T i : ℕ) : ℚ :=
  ∑ j ∈ Finset.range T, x (i * T + j)

/-! ### Puzzle 8: `softmax_kernel` (src/puzzles.py:498-534)

Two-loop online softmax.  The first loop maintains the running maximum
(initialised to `-inf`, modelled `none`) and the rescaled running sum; the
second loop emits `E(value - final_max) / final_sum` per element, stores
masked.  `E` abstracts the kernel's `t ↦ exp2(log2_e * t)`. -/

/-- One chunk iteration of the first `softmax_kernel` loop on the running
state `(global_maxs, sums)` of row `i`. -/
def softmax_step (E : ℚ → ℚ) (x : Buf) (N0 T B1 i : ℕ)
    (st : Option ℚ × ℚ) (c : ℕ) : Option ℚ × ℚ :=
  let vals : ℕ → ℚ := fun l =>
    mload x (i * T + (c * B1 + l)) (decide (i < N0) && decide (c * B1 + l < T))
  let newMax : ℚ := fmax st.1 (tileMax vals B1)
  let factory : ℚ := fexpSub E st.1 newMax
  let localSum : ℚ := ∑ l ∈ Finset.range B1, E (vals l - newMax)
  (some newMax, st.2 * factory + localSum)

/-- Running state of the first `softmax_kernel` loop after `n` chunks,
starting from `(-inf, 0)`. -/
def softmax_state (E : ℚ → ℚ) (x : Buf) (N0 T B1 i : ℕ) : ℕ → Option ℚ × ℚ
  | 0 => (none, 0)
  | n + 1 => softmax_step E x N0 T B1 i (softmax_state E x N0 T B1 i n) n

/-- Value stored by the second `softmax_kernel` loop at output position
`(i, j)`: `E(vals - global_maxs) / sums` after all `cdiv T B1` chunks.
The `getD 0` covers only the `T = 0` case in which the loop body never
runs and nothing is stored. -/
def softmax_kernel_out (E : ℚ → ℚ) (x : Buf) (N0 T B1 i j : ℕ) : ℚ :=
  let st := softmax_state E x N0 T B1 i (cdiv T B1)
  E (mload x (i * T + j) (decide (i < N0) && decide (j < T)) - st.1.getD 0) / st.2

/-! ### Puzzle 9: `flashatt_kernel` (src/puzzles.py:575-617)

Single-pass streaming attention.  Scores are plain products of masked
loads (`q` filled with `0` outside `i < N0`, `k` filled with `0` outside
`j < T`); the kernel applies no `tl.where` to the score tile. -/

/-- Score tile entry `qk[i, l]` of chunk `c`: product of the masked `q` and
`k` loads (fill value `0`, so a masked-off column holds score `0`). -/
def flash_qk (q k : Buf) (N0 T B1 i c l : ℕ) : ℚ :=
  mload q i (decide (i < N0)) * mload k (c * B1 + l) (decide (c * B1 + l < T))

/-- One chunk iteration of `flashatt_kernel` on the running state
`(global_maxs, sums, result)` of row `i`. -/
def flash_step (E : ℚ → ℚ) (q k v : Buf) (N0 T B1 i : ℕ)
    (st : Option ℚ × ℚ × ℚ) (c : ℕ) : Option ℚ × ℚ × ℚ :=
  let qk : ℕ → ℚ := fun l => flash_qk q k N0 T B1 i c l
  let newMax : ℚ := fmax st.1 (tileMax qk B1)
  let factory : ℚ := fexpSub E st.1 newMax
  let qkExp : ℕ → ℚ := fun l => E (qk l - newMax)
  let localSum : ℚ := ∑ l ∈ Finset.range B1, qkExp l
  let vChunk : ℕ → ℚ := fun l => mload v (c * B1 + l) (decide (c * B1 + l < T))
  let localRes : ℚ := ∑ l ∈ Finset.range B1, qkExp l * vChunk l
  (some newMax, st.2.1 * factory + localSum, st.2.2 * factory + localRes)

/-- Running state of `flashatt_kernel` after `n` chunks, starting from
`(-inf, 0, 0)`. -/
def flash_state (E : ℚ → ℚ) (q k v : Buf) (N0 T B1 i : ℕ) : ℕ → Option ℚ × ℚ × ℚ
  | 0 => (none, 0, 0)
  | n + 1 => flash_step E q k v N0 T B1 i (flash_state E q k v N0 T B1 i n) n

/-- Output of `flashatt_kernel` for row `i`: `result / sums` after all
`cdiv T B1` chunks. -/
def flashatt_kernel_row (E : ℚ → ℚ) (q k v : Buf) (N0 T B1 i : ℕ) : ℚ :=
  let st := flash_state E q k v N0 T B1 i (cdiv T B1)
  st.2.2 / st.2.1

/-- Reference `flashatt_spec` (src/puzzles.py:564-572): untiled
`sum_j softmax(q_i * k)_j * v_j`, with the row maximum subtracted before
the exponential exactly as the source does. -/
def flashatt_spec (E : ℚ → ℚ) (q k v : Buf) (T i : ℕ) : ℚ :=
  let m := tileMax (fun j => q i * k j) T
  let s := ∑ j ∈ Finset.range T, E (q i * k j - m)
  ∑ j ∈ Finset.range T, v j * (E (q i * k j - m) / s)

/-! ### Puzzle 10: `conv2d_kernel` (src/puzzles.py:644-674)

Batched 2-D convolution.  Image layout `(N0, H, W)` row-major: element
`(b, h, w)` lives at flat index `b * (H * W) + h * W + w`; the 4×4 (in
general `KH × KW`) convolution kernel is loaded unmasked.  The two `for`
loops over `h` and `w` each store one output element per batch lane, masked
by batch validity; the sliding-window load is masked by batch validity and
by `h + kh < H`, `w + kw < W`. -/

/-- Value computed by `conv2d_kernel` for output element `(gb, h, w)`:
`(inp * kernel).sum(2).sum(1)` over the masked `KH × KW` window load. -/
def conv2d_val (x kbuf : Buf) (N0 H W KH KW gb h w : ℕ) : ℚ :=
  ∑ kh ∈ Finset.range KH, ∑ kw ∈ Finset.range KW,
    mload x (gb * (H * W) + (h + kh) * W + (w + kw))
      (decide (gb < N0) && decide (h + kh < H) && decide (w + kw < W)) *
    mload kbuf (kh * KW + kw) true

/-- Write list of one `(h, w)` iteration of `conv2d_kernel` instance `g`:
one output element per batch lane `lb < B0`, masked by `g * B0 + lb < N0`. -/
def conv2d_writes_hw (x kbuf : Buf) (N0 H W KH KW B0 g h w : ℕ) : List Wr :=
  (List.range B0).map fun lb =>
    ⟨(g * B0 + lb) * (H * W) + h * W + w, decide (g * B0 + lb < N0),
      conv2d_val x kbuf N0 H W KH KW (g * B0 + lb) h w⟩

/-- Write list of one `conv2d_kernel` instance `g`: the `h` loop (outer)
and `w` loop (inner) in program order. -/
def conv2d_writes (x kbuf : Buf) (N0 H W KH KW B0 g : ℕ) : List Wr :=
  flatRange (fun h => flatRange (conv2d_writes_hw x kbuf N0 H W KH KW B0 g h) W) H

/-- Full run of `conv2d_kernel` over its `cdiv N0 B0` instances. -/
def conv2d_run (x kbuf z : Buf) (N0 H W KH KW B0 : ℕ) : Buf :=
  commit z (flatRange (conv2d_writes x kbuf N0 H W KH KW B0) (cdiv N0 B0))

/-- Reference `conv2d_spec` (src/puzzles.py:634-641), generalised from the
fixed `4 × 8 × 8` typing to arbitrary extents: the image is zero-padded at
the bottom and the right, so window positions beyond the image contribute
zero to `z[b, i, j] = sum_{kh, kw} k[kh, kw] * x_padded[b, i + kh, j + kw]`. -/
def conv2d_spec (x kbuf : Buf) (H W KH KW b i j : ℕ) : ℚ :=
  ∑ kh ∈ Finset.range KH, ∑ kw ∈ Finset.range KW,
    kbuf (kh * KW + kw) *
      (if i + kh < H ∧ j + kw < W then x (b * (H * W) + (i + kh) * W + (j + kw)) else 0)

/-! ### Puzzle 11: `dot_kernel` (src/puzzles.py:702-760)

Batched tiled matrix multiplication.  Layouts (row-major):
`x : (N2, N1, MID)`, `y : (N2, MID, N0)`, `z : (N2, N1, N0)`.  The grid is
`(cdiv N0 B0, cdiv N1 B1, cdiv N2 B2)` over the `n`, `m` and batch axes;
the contraction axis is streamed in chunks of `B_MID` with all loads masked
at every axis bound, and `tl.dot` is modelled as the exact batched matrix
product. -/

/-- Accumulated tile value of `dot_kernel` at global output coordinates
`(gb, gm, gn)`: `tile += tl.dot(A, B)` over all `cdiv MID BMID` chunks of
the masked operand loads. -/
def dot_tile (x y : Buf) (N0 N1 N2 MID BMID gb gm gn : ℕ) : ℚ :=
  ∑ c ∈ Finset.range (cdiv MID BMID), ∑ lk ∈ Finset.range BMID,
    mload x (gb * (N1 * MID) + gm * MID + (c * BMID + lk))
      (decide (gb < N2) && decide (gm < N1) && decide (c * BMID + lk < MID)) *
    mload y (gb * (MID * N0) + (c * BMID + lk) * N0 + gn)
      (decide (gb < N2) && decide (c * BMID + lk < MID) && decide (gn < N0))

/-- Write list of one `dot_kernel` instance `(i0, i1, i2)`: the final
masked store of the `B2 × B1 × B0` output tile. -/
def dot_writes (x y : Buf) (N0 N1 N2 MID B0 B1 B2 BMID i0 i1 i2 : ℕ) : List Wr :=
  flatRange (fun lb => flatRange (fun lm => (List.range B0).map fun ln =>
    ⟨(i2 * B2 + lb) * (N1 * N0) + (i1 * B1 + lm) * N0 + (i0 * B0 + ln),
      decide (i2 * B2 + lb < N2) && decide (i1 * B1 + lm < N1) &&
        decide (i0 * B0 + ln < N0),
      dot_tile x y N0 N1 N2 MID BMID (i2 * B2 + lb) (i1 * B1 + lm) (i0 * B0 + ln)⟩) B1) B2

/-- Full run of `dot_kernel` over its three-axis grid. -/
def dot_run (x y z : Buf) (N0 N1 N2 MID B0 B1 B2 BMID : ℕ) : Buf :=
  commit z (flatRange (fun i2 => flatRange (fun i1 => flatRange
    (fun i0 => dot_writes x y N0 N1 N2 MID B0 B1 B2 BMID i0 i1 i2)
    (cdiv N0 B0)) (cdiv N1 B1)) (cdiv N2 B2))

/-- Reference `dot_spec` (src/puzzles.py:698-699): the batched matrix
product `x @ y` at entry `(b, m, n)`. -/
def dot_spec (x y : Buf) (N0 N1 MID b m n : ℕ) : ℚ :=
  ∑ l ∈ Finset.range MID,
    x (b * (N1 * MID) + m * MID + l) * y (b * (MID * N0) + l * N0 + n)

/-! ### Puzzle 12: `quant_dot_kernel` (src/puzzles.py:785-899)

4-bit quantised matmul.  `FPINT = 32 // 4` packed sub-values per 32-bit
word, `GROUP = 8` weights per scale/offset group.  Packed words are `int32`
values; Python/torch `>>` is an arithmetic (floor) shift and `& (2^4 - 1)`
keeps the low four bits, i.e. reduces modulo `2^4`, so both are exact on
the represented integer. -/

/-- Source constant `FPINT = 32 // 4` (src/puzzles.py:785). -/
def FPINT : ℕ := 32 / 4

/-- Source constant `GROUP = 8` (src/puzzles.py:786). -/
def GROUP : ℕ := 8

/-- Reference `extract` (src/puzzles.py:797-800): 4-bit sub-value `i` of a
packed word, `(x >> (i * 4)) & (2^4 - 1)`; the shift is the arithmetic
(floor) shift and the bitmask is reduction modulo `2^4`. -/
def extract (x : ℤ) (i : ℕ) : ℤ :=
  Int.fdiv x (2 ^ (i * 4)) % 2 ^ 4

/-- Kernel-side unpacking (src/puzzles.py:853-854): with
`BITS = 32 // FPINT`, computes `(w >> (i * (32 // FPINT))) & ((1 << BITS) - 1)`,
the bitmask again being reduction modulo `2 ^ BITS`. -/
def quant_unpack (w : ℤ) (i : ℕ) : ℤ :=
  Int.fdiv w (2 ^ (i * (32 / FPINT))) % 2 ^ (32 / FPINT)

/-- Kernel-side dequantisation (src/puzzles.py:883):
`scale * (quant_weight - offset)` with both 4-bit fields unpacked by the
kernel's shift-and-mask. -/
def quant_dequant (s : ℚ) (w o : ℤ) (i j : ℕ) : ℚ :=
  s * ((quant_unpack w i : ℚ) - (quant_unpack o j : ℚ))

/-- Reference dequantisation (src/puzzles.py:806):
`scale * (extract(weight) - extract(offset))`. -/
def quant_dequant_spec (s : ℚ) (w o : ℤ) (i j : ℕ) : ℚ :=
  s * ((extract w i : ℚ) - (extract o j : ℚ))

/-- The static precondition gate of `quant_dot_kernel`
(src/puzzles.py:837-842): the five `tl.static_assert` conditions, evaluated
on `constexpr` arguments before any grid instance computes. -/
def quant_static_ok (MID BMID : ℕ) : Bool :=
  (MID % FPINT == 0) && (BMID % FPINT == 0) && (MID % BMID == 0) &&
    ((MID / FPINT) % (BMID / FPINT) == 0) && (MID % GROUP == 0)

/-- The offset-shift table (src/puzzles.py:878):
`(arange(0, FPINT) * (32 // FPINT)).expand_dims(1).broadcast_to(FPINT, GROUP)`
flattened row-major, so entry `r` is `(r / GROUP) * (32 / FPINT)`.  The
source then applies `.reshape(B_MID)` to this `FPINT * GROUP`-element
tensor, which is only well-formed when `B_MID = FPINT * GROUP`. -/
def offset_shifts : List ℕ :=
  (List.range (FPINT * GROUP)).map fun r => (r / GROUP) * (32 / FPINT)

/-- Well-formedness of the `.reshape(B_MID)` on the offset-shift table:
a reshape must preserve the element count. -/
def quant_reshape_ok (BMID : ℕ) : Bool :=
  offset_shifts.length == BMID

/-! ### Concrete buffers used by witnesses and counterexamples -/

/-- The all-zeros buffer. -/
def zerosB : Buf := fun _ => 0

/-- The all-ones buffer. -/
def onesB : Buf := fun _ => 1

/-! ### Generic lemmas about masked stores, grids and chunked sums -/

theorem commit_concat (b : Buf) (ws : List Wr) (w : Wr) (p : ℕ) :
    commit b (ws ++ [w]) p = if w.msk && (w.idx == p) then w.val else commit b ws p := by
  simp [commit, List.foldl_append]

theorem commit_miss (b : Buf) (ws : List Wr) (p : ℕ)
    (h : ∀ w ∈ ws, w.msk = true → w.idx ≠ p) : commit b ws p = b p := by
  induction ws using List.reverseRecOn with
  | nil => rfl
  | append_singleton ws w ih =>
    rw [commit_concat]
    have hw := h w (by simp)
    have hmiss : (w.msk && (w.idx == p)) = false := by
      cases hm : w.msk with
      | false => simp
      | true => simp [hw hm]
    rw [hmiss]
    simp only [Bool.false_eq_true, if_false]
    exact ih fun v hv => h v (by simp [hv])

theorem commit_hit (b : Buf) (ws : List Wr) (p : ℕ) (q : ℚ)
    (hex : ∃ w ∈ ws, w.msk = true ∧ w.idx = p)
    (huniq : ∀ v ∈ ws, v.msk = true → v.idx = p → v.val = q) :
    commit b ws p = q := by
  induction ws using List.reverseRecOn with
  | nil => simp at hex
  | append_singleton ws w ih =>
    rw [commit_concat]
    by_cases hw : w.msk = true ∧ w.idx = p
    · rw [if_pos (by simp [hw.1, hw.2])]
      exact huniq w (by simp) hw.1 hw.2
    · have hmiss : (w.msk && (w.idx == p)) = false := by
        cases hm : w.msk with
        | false => simp
        | true =>
          have : w.idx ≠ p := fun hi => hw ⟨hm, hi⟩
          simp [this]
      rw [hmiss]
      simp only [Bool.false_eq_true, if_false]
      obtain ⟨u, hu, hum, hui⟩ := hex
      rcases List.mem_append.mp hu with hul | hur
      · exact ih ⟨u, hul, hum, hui⟩ fun v hv => huniq v (by simp [hv])
      · exfalso
        exact hw (by simpa using (List.mem_singleton.mp hur ▸ And.intro hum hui))

theorem mem_flatRange {α : Type} (f : ℕ → List α) (n : ℕ) (w : α) :
    w ∈ flatRange f n ↔ ∃ g, g < n ∧ w ∈ f g := by
  induction n with
  | zero => simp [flatRange]
  | succ n ih =>
    simp only [flatRange, List.mem_append, ih]
    constructor
    · rintro (⟨g, hg, hw⟩ | hw)
      · exact ⟨g, Nat.lt_succ_of_lt hg, hw⟩
      · exact ⟨n, Nat.lt_succ_self n, hw⟩
    · rintro ⟨g, hg, hw⟩
      rcases Nat.lt_succ_iff_lt_or_eq.mp hg with hg' | rfl
      · exact Or.inl ⟨g, hg', hw⟩
      · exact Or.inr hw

theorem decomp_unique {B g g' l l' : ℕ} (hl : l < B) (hl' : l' < B)
    (h : g * B + l = g' * B + l') : g = g' ∧ l = l' := by
  have hgg : g = g' := by
    rcases Nat.lt_trichotomy g g' with hlt | heq | hgt
    · exfalso
      have h1 : g * B + l < (g + 1) * B := by
        have := Nat.add_lt_add_left hl (g * B)
        simpa [Nat.succ_mul] using this
      have h2 : (g + 1) * B ≤ g' * B := Nat.mul_le_mul_right B hlt
      omega
    · exact heq
    · exfalso
      have h1 : g' * B + l' < (g' + 1) * B := by
        have := Nat.add_lt_add_left hl' (g' * B)
        simpa [Nat.succ_mul] using this
      have h2 : (g' + 1) * B ≤ g * B := Nat.mul_le_mul_right B hgt
      omega
  subst hgg
  exact ⟨rfl, by omega⟩

theorem le_cdiv_mul (n B : ℕ) (hB : 0 < B) : n ≤ cdiv n B * B := by
  cases n with
  | zero => simp
  | succ m =>
    have hrw : m + 1 + B - 1 = m + B := by omega
    have hdiv : (m + B) / B = m / B + 1 := Nat.add_div_right m hB
    have h1 : B * (m / B) + m % B = m := Nat.div_add_mod m B
    have h1' : m / B * B = B * (m / B) := Nat.mul_comm _ _
    have h2 := Nat.mod_lt m hB
    calc m + 1 ≤ m / B * B + B := by omega
    _ = (m / B + 1) * B := by ring
    _ = cdiv (m + 1) B * B := by rw [cdiv, hrw, hdiv]

theorem div_lt_cdiv {i n B : ℕ} (hB : 0 < B) (h : i < n) : i / B < cdiv n B := by
  rw [Nat.div_lt_iff_lt_mul hB]
  exact Nat.lt_of_lt_of_le h (le_cdiv_mul n B hB)

theorem sum_chunks (f : ℕ → ℚ) (C B : ℕ) :
    ∑ c ∈ Finset.range C, ∑ l ∈ Finset.range B, f (c * B + l) =
      ∑ t ∈ Finset.range (C * B), f t := by
  induction C with
  | zero => simp
  | succ C ih =>
    rw [Finset.sum_range_succ, ih, Nat.succ_mul, Finset.sum_range_add]

theorem sum_range_of_zero_tail (f : ℕ → ℚ) {T M : ℕ} (hTM : T ≤ M)
    (h : ∀ t, T ≤ t → f t = 0) :
    ∑ t ∈ Finset.range M, f t = ∑ t ∈ Finset.range T, f t := by
  refine (Finset.sum_subset (Finset.range_subset.mpr hTM) ?_).symm
  intro t _ hnt
  exact h t (by simpa using hnt)

/-! ### Puzzle 7: correctness of `sum_kernel` -/

theorem sum_kernel_acc_eq (x : Buf) (N0 T B1 i : ℕ) (hB1 : 0 < B1) (hi : i < N0) :
    sum_kernel_acc x N0 T B1 i = sum_spec x T i := by
  calc sum_kernel_acc x N0 T B1 i
      = ∑ c ∈ Finset.range (cdiv T B1), ∑ l ∈ Finset.range B1,
          (fun t => if t < T then x (i * T + t) else 0) (c * B1 + l) := by
        unfold sum_kernel_acc
        refine Finset.sum_congr rfl fun c _ => Finset.sum_congr rfl fun l _ => ?_
        simp [mload, hi]
    _ = ∑ t ∈ Finset.range (cdiv T B1 * B1),
          (fun t => if t < T then x (i * T + t) else 0) t :=
        sum_chunks (fun t => if t < T then x (i * T + t) else 0) (cdiv T B1) B1
    _ = ∑ t ∈ Finset.range T, (fun t => if t < T then x (i * T + t) else 0) t :=
        sum_range_of_zero_tail _ (le_cdiv_mul T B1 hB1)
          (fun t ht => by simp [Nat.not_lt.mpr ht])
    _ = sum_spec x T i :=
        Finset.sum_congr rfl fun t ht => by simp [Finset.mem_range.mp ht]

theorem sum_kernel_run_at (x z : Buf) (N0 T B0 B1 i : ℕ)
    (hB0 : 0 < B0) (hB1 : 0 < B1) (hi : i < N0) :
    sum_kernel_run x z N0 T B0 B1 i = sum_spec x T i := by
  have hdm : i / B0 * B0 + i % B0 = i := by
    rw [Nat.mul_comm]; exact Nat.div_add_mod i B0
  refine commit_hit _ _ _ _
    ⟨⟨i, decide (i < N0), sum_kernel_acc x N0 T B1 i⟩, ?_, by simp [hi], rfl⟩ ?_
  · refine (mem_flatRange _ _ _).mpr ⟨i / B0, div_lt_cdiv hB0 hi, ?_⟩
    unfold sum_kernel_writes
    exact List.mem_map.mpr ⟨i % B0, by simp [Nat.mod_lt i hB0], by rw [hdm]⟩
  · intro v hv hm hidx
    obtain ⟨g, _, hvmem⟩ := (mem_flatRange _ _ _).mp hv
    obtain ⟨lb, _, rfl⟩ := List.mem_map.mp hvmem
    simp only at hidx
    rw [hidx]
    exact sum_kernel_acc_eq x N0 T B1 i hB1 hi

/-- C6: for every input matrix and every chunk size `B1`, `sum_kernel`
streams the reduced axis in chunks with loads masked at both the kept-axis
and streamed-axis bounds, and its output at every valid row equals the
per-row sum reference `sum_spec`; the 4×200 all-ones instance with
`B0 = 1`, `B1 = 32` (yielding 200.0 per row) is the witness below. -/
theorem sum_kernel_matches_spec (x z : Buf) (N0 T B0 B1 i : ℕ)
    (hB0 : 0 < B0) (hB1 : 0 < B1) (hi : i < N0) :
    sum_kernel_run x z N0 T B0 B1 i = sum_spec x T i :=
  sum_kernel_run_at x z N0 T B0 B1 i hB0 hB1 hi

/-- Witness for C6: the Puzzle-7 test configuration, a 4×200 matrix of
ones with `B0 = 1`, `B1 = 32`, produces 200.0 at row 2. -/
theorem sum_kernel_matches_spec_witness :
    0 < 1 ∧ 0 < 32 ∧ 2 < 4 ∧
      sum_kernel_run onesB zerosB 4 200 1 32 2 = sum_spec onesB 200 2 ∧
      sum_spec onesB 200 2 = 200 :=
  ⟨by decide, by decide, by decide,
    sum_kernel_matches_spec onesB zerosB 4 200 1 32 2 (by decide) (by decide) (by decide),
    by simp [sum_spec, onesB]⟩

/-! ### Puzzle 11: correctness of `dot_kernel` -/

theorem flat2_lt {Y Z A B : ℕ} (hY : Y < A) (hZ : Z < B) : Y * B + Z < A * B :=
  calc Y * B + Z < Y * B + B := by omega
  _ = (Y + 1) * B := by ring
  _ ≤ A * B := Nat.mul_le_mul_right B (by omega)

theorem dot_tile_eq (x y : Buf) (N0 N1 N2 MID BMID b m n : ℕ) (hBM : 0 < BMID)
    (hb : b < N2) (hm : m < N1) (hn : n < N0) :
    dot_tile x y N0 N1 N2 MID BMID b m n = dot_spec x y N0 N1 MID b m n := by
  have hfun : dot_tile x y N0 N1 N2 MID BMID b m n
      = ∑ c ∈ Finset.range (cdiv MID BMID), ∑ lk ∈ Finset.range BMID,
        (fun t => if t < MID then
          x (b * (N1 * MID) + m * MID + t) * y (b * (MID * N0) + t * N0 + n) else 0)
          (c * BMID + lk) := by
    unfold dot_tile
    refine Finset.sum_congr rfl fun c _ => Finset.sum_congr rfl fun lk _ => ?_
    by_cases hk : c * BMID + lk < MID <;> simp [mload, hb, hm, hn, hk]
  rw [hfun,
    sum_chunks (fun t => if t < MID then
      x (b * (N1 * MID) + m * MID + t) * y (b * (MID * N0) + t * N0 + n) else 0)
      (cdiv MID BMID) BMID,
    sum_range_of_zero_tail _ (le_cdiv_mul MID BMID hBM)
      (fun t ht => by simp [Nat.not_lt.mpr ht])]
  unfold dot_spec
  exact Finset.sum_congr rfl fun t ht => by simp [Finset.mem_range.mp ht]

theorem mem_dot_writes {x y : Buf} {N0 N1 N2 MID B0 B1 B2 BMID i0 i1 i2 : ℕ} {w : Wr}
    (h : w ∈ dot_writes x y N0 N1 N2 MID B0 B1 B2 BMID i0 i1 i2) :
    ∃ lb lm ln, lb < B2 ∧ lm < B1 ∧ ln < B0 ∧
      w = ⟨(i2 * B2 + lb) * (N1 * N0) + (i1 * B1 + lm) * N0 + (i0 * B0 + ln),
        decide (i2 * B2 + lb < N2) && decide (i1 * B1 + lm < N1) &&
          decide (i0 * B0 + ln < N0),
        dot_tile x y N0 N1 N2 MID BMID (i2 * B2 + lb) (i1 * B1 + lm) (i0 * B0 + ln)⟩ := by
  unfold dot_writes at h
  obtain ⟨lb, hlb, h⟩ := (mem_flatRange _ _ _).mp h
  obtain ⟨lm, hlm, h⟩ := (mem_flatRange _ _ _).mp h
  obtain ⟨ln, hln, rfl⟩ := List.mem_map.mp h
  exact ⟨lb, lm, ln, hlb, hlm, by simpa using hln, rfl⟩

theorem dot_run_at (x y z : Buf) (N0 N1 N2 MID B0 B1 B2 BMID b m n : ℕ)
    (hB0 : 0 < B0) (hB1 : 0 < B1) (hB2 : 0 < B2) (hBM : 0 < BMID)
    (hb : b < N2) (hm : m < N1) (hn : n < N0) :
    dot_run x y z N0 N1 N2 MID B0 B1 B2 BMID (b * (N1 * N0) + m * N0 + n) =
      dot_spec x y N0 N1 MID b m n := by
  have hdm2 : b / B2 * B2 + b % B2 = b := by
    rw [Nat.mul_comm]; exact Nat.div_add_mod b B2
  have hdm1 : m / B1 * B1 + m % B1 = m := by
    rw [Nat.mul_comm]; exact Nat.div_add_mod m B1
  have hdm0 : n / B0 * B0 + n % B0 = n := by
    rw [Nat.mul_comm]; exact Nat.div_add_mod n B0
  refine commit_hit _ _ _ _
    ⟨⟨b * (N1 * N0) + m * N0 + n,
      decide (b < N2) && decide (m < N1) && decide (n < N0),
      dot_tile x y N0 N1 N2 MID BMID b m n⟩, ?_, by simp [hb, hm, hn], rfl⟩ ?_
  · refine (mem_flatRange _ _ _).mpr ⟨b / B2, div_lt_cdiv hB2 hb, ?_⟩
    refine (mem_flatRange _ _ _).mpr ⟨m / B1, div_lt_cdiv hB1 hm, ?_⟩
    refine (mem_flatRange _ _ _).mpr ⟨n / B0, div_lt_cdiv hB0 hn, ?_⟩
    unfold dot_writes
    refine (mem_flatRange _ _ _).mpr ⟨b % B2, Nat.mod_lt b hB2, ?_⟩
    refine (mem_flatRange _ _ _).mpr ⟨m % B1, Nat.mod_lt m hB1, ?_⟩
    refine List.mem_map.mpr ⟨n % B0, by simp [Nat.mod_lt n hB0], ?_⟩
    rw [hdm2, hdm1, hdm0]
  · intro v hv hvm hvidx
    obtain ⟨i2, _, hv⟩ := (mem_flatRange _ _ _).mp hv
    obtain ⟨i1, _, hv⟩ := (mem_flatRange _ _ _).mp hv
    obtain ⟨i0, _, hv⟩ := (mem_flatRange _ _ _).mp hv
    obtain ⟨lb, lm, ln, hlb, hlm, hln, rfl⟩ := mem_dot_writes hv
    simp only [Bool.and_eq_true, decide_eq_true_eq] at hvm
    obtain ⟨⟨hgb, hgm⟩, hgn⟩ := hvm
    simp only at hvidx
    have hvidx' : (i2 * B2 + lb) * (N1 * N0) + ((i1 * B1 + lm) * N0 + (i0 * B0 + ln)) =
        b * (N1 * N0) + (m * N0 + n) := by omega
    have hlt1 : (i1 * B1 + lm) * N0 + (i0 * B0 + ln) < N1 * N0 := flat2_lt hgm hgn
    have hlt2 : m * N0 + n < N1 * N0 := flat2_lt hm hn
    obtain ⟨hb2, hinner⟩ := decomp_unique hlt1 hlt2 hvidx'
    obtain ⟨hm1, hn0⟩ := decomp_unique hgn hn hinner
    simp only
    rw [hb2, hm1, hn0]
    exact dot_tile_eq x y N0 N1 N2 MID BMID b m n hBM hb hm hn

/-- C1: for every pair of input tensors, every initial output buffer and
every choice of block sizes `B0, B1, B2, B_MID` (dividing the extents or
not), the tiled `dot_kernel` produces, at every valid output coordinate
`(b, m, n)`, exactly the reference batched matrix product `dot_spec`, hence
in particular a value within the harness tolerance
`|a - b| <= atol + rtol * |b|` with `atol = 1e-4`, `rtol = 1e-3`;
out-of-range positions contribute zero to the accumulation because the
masked loads fill `0`. -/
theorem dot_kernel_matches_spec (x y z : Buf) (N0 N1 N2 MID B0 B1 B2 BMID b m n : ℕ)
    (hB0 : 0 < B0) (hB1 : 0 < B1) (hB2 : 0 < B2) (hBM : 0 < BMID)
    (hb : b < N2) (hm : m < N1) (hn : n < N0) :
    dot_run x y z N0 N1 N2 MID B0 B1 B2 BMID (b * (N1 * N0) + m * N0 + n) =
      dot_spec x y N0 N1 MID b m n ∧
    |dot_run x y z N0 N1 N2 MID B0 B1 B2 BMID (b * (N1 * N0) + m * N0 + n) -
        dot_spec x y N0 N1 MID b m n| ≤
      1 / 10000 + 1 / 1000 * |dot_spec x y N0 N1 MID b m n| := by
  have h := dot_run_at x y z N0 N1 N2 MID B0 B1 B2 BMID b m n hB0 hB1 hB2 hBM hb hm hn
  refine ⟨h, ?_⟩
  rw [h]
  simp only [sub_self, abs_zero]
  positivity

/-- Witness for C1: a 1×1×1 output with contraction extent `MID = 3` and a
non-dividing contraction block `B_MID = 2`. -/
theorem dot_kernel_matches_spec_witness :
    0 < 1 ∧ 0 < 2 ∧ 0 < 3 ∧
      dot_run (fun i => (i : ℚ) + 1) (fun i => (i : ℚ) + 2) zerosB 1 1 1 3 1 1 1 2
          (0 * (1 * 1) + 0 * 1 + 0) =
        dot_spec (fun i => (i : ℚ) + 1) (fun i => (i : ℚ) + 2) 1 1 3 0 0 0 ∧
      dot_spec (fun i => (i : ℚ) + 1) (fun i => (i : ℚ) + 2) 1 1 3 0 0 0 = 20 :=
  ⟨by decide, by decide, by decide,
    (dot_kernel_matches_spec (fun i => (i : ℚ) + 1) (fun i => (i : ℚ) + 2) zerosB
      1 1 1 3 1 1 1 2 0 0 0 (by decide) (by decide) (by decide) (by decide)
      (by decide) (by decide) (by decide)).1,
    by simp [dot_spec, Finset.sum_range_succ]; norm_num⟩

/-! ### Puzzle 10: correctness of `conv2d_kernel` -/

theorem conv2d_val_eq (x kbuf : Buf) (N0 H W KH KW gb h w : ℕ) (hgb : gb < N0) :
    conv2d_val x kbuf N0 H W KH KW gb h w = conv2d_spec x kbuf H W KH KW gb h w := by
  unfold conv2d_val conv2d_spec
  refine Finset.sum_congr rfl fun kh _ => Finset.sum_congr rfl fun kw _ => ?_
  by_cases h1 : h + kh < H <;> by_cases h2 : w + kw < W <;>
    simp [mload, hgb, h1, h2, mul_comm]

theorem mem_conv2d_writes {x kbuf : Buf} {N0 H W KH KW B0 g : ℕ} {wr : Wr}
    (hmem : wr ∈ conv2d_writes x kbuf N0 H W KH KW B0 g) :
    ∃ h w lb, h < H ∧ w < W ∧ lb < B0 ∧
      wr = ⟨(g * B0 + lb) * (H * W) + h * W + w, decide (g * B0 + lb < N0),
        conv2d_val x kbuf N0 H W KH KW (g * B0 + lb) h w⟩ := by
  unfold conv2d_writes at hmem
  obtain ⟨h, hh, hmem⟩ := (mem_flatRange _ _ _).mp hmem
  obtain ⟨w, hw, hmem⟩ := (mem_flatRange _ _ _).mp hmem
  unfold conv2d_writes_hw at hmem
  obtain ⟨lb, hlb, rfl⟩ := List.mem_map.mp hmem
  exact ⟨h, w, lb, hh, hw, by simpa using hlb, rfl⟩

theorem conv2d_run_at (x kbuf z : Buf) (N0 H W KH KW B0 b i j : ℕ)
    (hB0 : 0 < B0) (hb : b < N0) (hi : i < H) (hj : j < W) :
    conv2d_run x kbuf z N0 H W KH KW B0 (b * (H * W) + i * W + j) =
      conv2d_spec x kbuf H W KH KW b i j := by
  have hdm : b / B0 * B0 + b % B0 = b := by
    rw [Nat.mul_comm]; exact Nat.div_add_mod b B0
  refine commit_hit _ _ _ _
    ⟨⟨b * (H * W) + i * W + j, decide (b < N0),
      conv2d_val x kbuf N0 H W KH KW b i j⟩, ?_, by simp [hb], rfl⟩ ?_
  · refine (mem_flatRange _ _ _).mpr ⟨b / B0, div_lt_cdiv hB0 hb, ?_⟩
    unfold conv2d_writes
    refine (mem_flatRange _ _ _).mpr ⟨i, hi, ?_⟩
    refine (mem_flatRange _ _ _).mpr ⟨j, hj, ?_⟩
    unfold conv2d_writes_hw
    refine List.mem_map.mpr ⟨b % B0, by simp [Nat.mod_lt b hB0], ?_⟩
    rw [hdm]
  · intro v hv hvm hvidx
    obtain ⟨g, _, hv⟩ := (mem_flatRange _ _ _).mp hv
    obtain ⟨h, w, lb, hh, hw, hlb, rfl⟩ := mem_conv2d_writes hv
    simp only [decide_eq_true_eq] at hvm
    simp only at hvidx
    have hvidx' : (g * B0 + lb) * (H * W) + (h * W + w) =
        b * (H * W) + (i * W + j) := by omega
    obtain ⟨hX, hinner⟩ := decomp_unique (flat2_lt hh hw) (flat2_lt hi hj) hvidx'
    obtain ⟨hhi, hwj⟩ := decomp_unique hw hj hinner
    simp only
    rw [hX, hhi, hwj]
    exact conv2d_val_eq x kbuf N0 H W KH KW b i j hb

/-- C10: for every batch of images and every convolution kernel,
`conv2d_kernel` produces at every valid output coordinate `(b, i, j)` the
zero-padded reference `conv2d_spec` (window positions past the bottom or
right boundary contribute zero via the validity mask on the sliding-window
load), and exactly one store of the whole run targets each valid output
element. -/
theorem conv2d_kernel_matches_spec (x kbuf z : Buf) (N0 H W KH KW B0 b i j : ℕ)
    (hB0 : 0 < B0) (hb : b < N0) (hi : i < H) (hj : j < W) :
    conv2d_run x kbuf z N0 H W KH KW B0 (b * (H * W) + i * W + j) =
      conv2d_spec x kbuf H W KH KW b i j ∧
    (∀ g h w lb, g < cdiv N0 B0 → h < H → w < W → lb < B0 →
      (((g * B0 + lb) * (H * W) + h * W + w = b * (H * W) + i * W + j ∧
          g * B0 + lb < N0) ↔
        (g = b / B0 ∧ lb = b % B0 ∧ h = i ∧ w = j))) := by
  have hdm : b / B0 * B0 + b % B0 = b := by
    rw [Nat.mul_comm]; exact Nat.div_add_mod b B0
  refine ⟨conv2d_run_at x kbuf z N0 H W KH KW B0 b i j hB0 hb hi hj, ?_⟩
  intro g h w lb _ hh hw hlb
  constructor
  · rintro ⟨hidx, _⟩
    have hidx' : (g * B0 + lb) * (H * W) + (h * W + w) =
        b * (H * W) + (i * W + j) := by omega
    obtain ⟨hX, hinner⟩ := decomp_unique (flat2_lt hh hw) (flat2_lt hi hj) hidx'
    obtain ⟨hhi, hwj⟩ := decomp_unique hw hj hinner
    have hX' : g * B0 + lb = b / B0 * B0 + b % B0 := by rw [hdm]; exact hX
    obtain ⟨hg, hl⟩ := decomp_unique hlb (Nat.mod_lt b hB0) hX'
    exact ⟨hg, hl, hhi, hwj⟩
  · rintro ⟨rfl, rfl, rfl, rfl⟩
    rw [hdm]
    exact ⟨rfl, hb⟩

/-- Witness for C10: a single 2×2 image with a 2×2 kernel at the
bottom-right output corner, where the window extends past both image
boundaries. -/
theorem conv2d_kernel_matches_spec_witness :
    0 < 1 ∧ 0 < 1 ∧ 1 < 2 ∧ 1 < 2 ∧
      (conv2d_run (fun t => (t : ℚ) + 1) (fun t => (t : ℚ) + 1) zerosB
          1 2 2 2 2 1 (0 * (2 * 2) + 1 * 2 + 1) =
        conv2d_spec (fun t => (t : ℚ) + 1) (fun t => (t : ℚ) + 1) 2 2 2 2 0 1 1) ∧
      conv2d_spec (fun t => (t : ℚ) + 1) (fun t => (t : ℚ) + 1) 2 2 2 2 0 1 1 = 4 :=
  ⟨by decide, by decide, by decide, by decide,
    (conv2d_kernel_matches_spec (fun t => (t : ℚ) + 1) (fun t => (t : ℚ) + 1) zerosB
      1 2 2 2 2 1 0 1 1 (by decide) (by decide) (by decide) (by decide)).1,
    by simp [conv2d_spec, Finset.sum_range_succ]; norm_num⟩

/-! ### Puzzle 1: behaviour of `add_kernel` on the all-ones input -/

theorem add_kernel_run_at (x z : Buf) (N0 B0 p : ℕ)
    (hN0 : 0 < N0) (hB0 : 0 < B0) (hp : p < B0) :
    add_kernel_run x z N0 B0 p = x p + 10 := by
  have h0 : 0 < cdiv N0 B0 := by
    have := div_lt_cdiv hB0 hN0
    simpa using this
  have hval : mload x p true + 10 = x p + 10 := by simp [mload]
  refine commit_hit _ _ _ _ ⟨⟨p, true, mload x p true + 10⟩, ?_, rfl, rfl⟩ ?_
  · refine (mem_flatRange _ _ _).mpr ⟨0, h0, ?_⟩
    unfold add_kernel_writes
    exact List.mem_map.mpr ⟨p, by simpa using hp, rfl⟩
  · intro v hv _ hvidx
    obtain ⟨g, _, hv⟩ := (mem_flatRange _ _ _).mp hv
    unfold add_kernel_writes at hv
    obtain ⟨l, _, rfl⟩ := List.mem_map.mp hv
    simp only at hvidx
    subst hvidx
    exact hval

/-- Counterexample for C5: `add_kernel` on 32 ones with `B0 = 32` produces
`11.0` at index 0 (the kernel adds the constant `10.0` to the loaded
input value `1.0`), not `10.0` as the claim states. -/
theorem add_kernel_ones_not_ten :
    add_kernel_run onesB zerosB 32 32 0 = 11 ∧ ¬ ((11 : ℚ) = 10) := by
  constructor
  · rw [add_kernel_run_at onesB zerosB 32 32 0 (by norm_num) (by norm_num) (by norm_num)]
    norm_num [onesB]
  · norm_num

/-- C5 (amended): running `add_kernel` on a vector of 32 ones with block
size `B0 = 32` produces a 32-length output whose every element is exactly
`11.0` (= 1 + 10). -/
theorem add_kernel_ones_all_eleven :
    ∀ i, i < 32 → add_kernel_run onesB zerosB 32 32 i = 11 := by
  intro i hi
  rw [add_kernel_run_at onesB zerosB 32 32 i (by norm_num) (by norm_num) hi]
  norm_num [onesB]

/-- Witness for the amended C5 at index 5. -/
theorem add_kernel_ones_all_eleven_witness :
    5 < 32 ∧ add_kernel_run onesB zerosB 32 32 5 = 11 :=
  ⟨by decide, add_kernel_ones_all_eleven 5 (by decide)⟩

/-! ### Frame property of masked stores -/

/-- C9: a masked store writes only at mask-true positions: committing any
write list leaves every buffer position untouched that no mask-true write
targets; in particular a full `add_mask2_kernel` run (whose stores are
masked by `idx < N0`) leaves every position at or beyond `N0` unchanged. -/
theorem masked_store_frame :
    (∀ (b : Buf) (ws : List Wr) (p : ℕ),
      (∀ w ∈ ws, w.msk = true → w.idx ≠ p) → commit b ws p = b p) ∧
    (∀ (x z : Buf) (N0 B0 p : ℕ), N0 ≤ p → add_mask2_run x z N0 B0 p = z p) := by
  constructor
  · exact fun b ws p h => commit_miss b ws p h
  · intro x z N0 B0 p hp
    unfold add_mask2_run
    apply commit_miss
    intro w hw hm
    obtain ⟨g, _, hw⟩ := (mem_flatRange _ _ _).mp hw
    unfold add_mask2_writes at hw
    obtain ⟨l, _, rfl⟩ := List.mem_map.mp hw
    simp only [decide_eq_true_eq] at hm
    simp only
    omega

/-- Witness for C9: a two-element write list with one mask-false write, and
an `add_mask2_kernel` run probed past the vector extent. -/
theorem masked_store_frame_witness :
    commit onesB [⟨0, true, 5⟩, ⟨3, false, 7⟩] 2 = onesB 2 ∧
      add_mask2_run onesB zerosB 4 4 6 = zerosB 6 :=
  ⟨masked_store_frame.1 onesB [⟨0, true, 5⟩, ⟨3, false, 7⟩] 2 (by decide),
    masked_store_frame.2 onesB zerosB 4 4 6 (by decide)⟩

/-! ### Puzzle 12: static preconditions and 4-bit unpacking -/

theorem implied_static_assert {MID BMID : ℕ} (h8 : BMID % FPINT = 0)
    (hmb : MID % BMID = 0) : MID / FPINT % (BMID / FPINT) = 0 := by
  obtain ⟨c, hc⟩ := Nat.dvd_of_mod_eq_zero h8
  obtain ⟨q, hq⟩ := Nat.dvd_of_mod_eq_zero hmb
  subst hc
  subst hq
  rcases Nat.eq_zero_or_pos c with rfl | hc0
  · simp
  · have h1 : FPINT * c * q / FPINT = c * q := by
      rw [Nat.mul_assoc]
      exact Nat.mul_div_cancel_left (c * q) (by decide : 0 < FPINT)
    have h2 : FPINT * c / FPINT = c := Nat.mul_div_cancel_left c (by decide)
    rw [h1, h2]
    exact Nat.mul_mod_right c q

/-- Counterexample for C7: the configuration `MID = 64`, `B_MID = 8`
satisfies every one of the kernel's `tl.static_assert` divisibility
preconditions, yet the kernel cannot run it: the offset-shift tensor has
`FPINT * GROUP = 64` elements and its `.reshape(B_MID)` is ill-formed for
`B_MID = 8`. -/
theorem quant_static_ok_not_sufficient :
    quant_static_ok 64 8 = true ∧ quant_reshape_ok 8 = false := by decide

/-- C7 (amended): the static gate of `quant_dot_kernel` accepts exactly the
configurations satisfying the four divisibility preconditions of the claim
(the fifth `static_assert` is implied by them), and the kernel is
well-formed — gate passed and the offset-shift reshape valid — exactly for
those configurations that additionally have `B_MID = FPINT * GROUP = 64`. -/
theorem quant_preconditions_characterized (MID BMID : ℕ) :
    (quant_static_ok MID BMID = true ↔
      (BMID % FPINT = 0 ∧ MID % FPINT = 0 ∧ MID % GROUP = 0 ∧ MID % BMID = 0)) ∧
    ((quant_static_ok MID BMID && quant_reshape_ok BMID) = true ↔
      ((BMID % FPINT = 0 ∧ MID % FPINT = 0 ∧ MID % GROUP = 0 ∧ MID % BMID = 0) ∧
        BMID = FPINT * GROUP)) := by
  have hlen : offset_shifts.length = FPINT * GROUP := by simp [offset_shifts]
  have hchar : quant_static_ok MID BMID = true ↔
      (BMID % FPINT = 0 ∧ MID % FPINT = 0 ∧ MID % GROUP = 0 ∧ MID % BMID = 0) := by
    unfold quant_static_ok
    simp only [Bool.and_eq_true, beq_iff_eq]
    constructor
    · rintro ⟨⟨⟨⟨h1, h2⟩, h3⟩, _⟩, h5⟩
      exact ⟨h2, h1, h5, h3⟩
    · rintro ⟨h2, h1, h5, h3⟩
      exact ⟨⟨⟨⟨h1, h2⟩, h3⟩, implied_static_assert h2 h3⟩, h5⟩
  refine ⟨hchar, ?_⟩
  rw [Bool.and_eq_true, hchar]
  constructor
  · rintro ⟨hc, hr⟩
    refine ⟨hc, ?_⟩
    simp only [quant_reshape_ok, beq_iff_eq] at hr
    rw [hlen] at hr
    exact hr.symm
  · rintro ⟨hc, rfl⟩
    exact ⟨hc, by simp [quant_reshape_ok, hlen]⟩

/-- C8: for every packed 32-bit word and every lane `i < FPINT`, the
kernel's shift-by-`i * (32 // FPINT)`-and-mask unpacking computes exactly
the reference `extract`, the kernel's dequantisation
`scale * (quant_weight - offset)` coincides with the reference
`scale * (extract(weight) - extract(offset))` for every scale and offset
word (the integer unpack is exact), and the flattened offset-shift table
assigns lane `r / GROUP` shift `4 * (r / GROUP)` exactly as `extract`
does. -/
theorem quant_unpack_matches_extract (w : ℤ) (i : ℕ) (_hi : i < FPINT) :
    quant_unpack w i = extract w i ∧
    (∀ (s : ℚ) (o : ℤ) (j : ℕ), quant_dequant s w o i j = quant_dequant_spec s w o i j) ∧
    (∀ r, r < FPINT * GROUP → offset_shifts.getD r 0 = r / GROUP * (32 / FPINT)) := by
  have hup : ∀ (u : ℤ) (t : ℕ), quant_unpack u t = extract u t := fun u t => rfl
  refine ⟨hup w i, fun s o j => ?_, by decide⟩
  unfold quant_dequant quant_dequant_spec
  rw [hup w i, hup o j]

/-- Witness for C8 on a negative packed word (arithmetic shift case). -/
theorem quant_unpack_matches_extract_witness :
    2 < FPINT ∧ quant_unpack (-123456789) 2 = extract (-123456789) 2 ∧
      quant_dequant (3 / 2) (-123456789) 45 2 1 =
        quant_dequant_spec (3 / 2) (-123456789) 45 2 1 :=
  ⟨by decide, (quant_unpack_matches_extract (-123456789) 2 (by decide)).1,
    (quant_unpack_matches_extract (-123456789) 2 (by decide)).2.1 (3 / 2) 45 1⟩

/-! ### Puzzles 8 and 9: the missing `-inf` masking of the streaming kernels

The kernels load with fill value `0` and never remap masked-off positions
to `-inf` (the source hints at `tl.where` but the implementation omits it),
so on a chunk that extends past `T` the spurious positions contribute
`E(0 - running_max) > 0` to the running sum.  The evaluations below run the
kernels on inputs whose scores are all `0`, where the only exponential
arguments are `0` and `-inf`; any model of the exponential with `E 0 = 1`
(true of `t ↦ exp2(log2_e * t)`) therefore reproduces the float run
exactly. -/

theorem flash_state_one (E : ℚ → ℚ) (hE : E 0 = 1) :
    flash_state E zerosB onesB onesB 1 3 2 0 1 = (some 0, 2, 2) := by
  simp [-Finset.sum_boole, flash_state, flash_step, flash_qk, mload, zerosB, onesB,
    tileMax, fmax, fexpSub, Finset.sum_range_succ, hE]
  norm_num

theorem flash_state_two (E : ℚ → ℚ) (hE : E 0 = 1) :
    flash_state E zerosB onesB onesB 1 3 2 0 2 = (some 0, 4, 3) := by
  have h1 := flash_state_one E hE
  show flash_step E zerosB onesB onesB 1 3 2 0
    (flash_state E zerosB onesB onesB 1 3 2 0 1) 1 = _
  rw [h1]
  simp [-Finset.sum_boole, flash_step, flash_qk, mload, zerosB, onesB,
    tileMax, fmax, fexpSub, Finset.sum_range_succ, hE]
  norm_num

/-- C2: `flashatt_kernel` does not match `flashatt_spec` when the chunk
size does not divide the sequence length.  With `T = 3`, `B1 = 2`,
`q = [0]`, `k = v = [1, 1, 1]`, all scores are `0`; the second chunk's
masked lane contributes a spurious `E(0 - max) = 1` to the running sum, so
the kernel returns `3/4` while the reference returns `1` — far outside the
harness tolerance `|a - b| <= 1e-4 + 1e-3 * |b|`.  This holds for every
model `E` of the exponential with `E 0 = 1`, in particular the code's
`t ↦ exp2(log2_e * t)`. -/
theorem flashatt_nondividing_chunk_bug (E : ℚ → ℚ) (hE : E 0 = 1) :
    flashatt_kernel_row E zerosB onesB onesB 1 3 2 0 = 3 / 4 ∧
    flashatt_spec E zerosB onesB onesB 3 0 = 1 ∧
    ¬ (|(3 : ℚ) / 4 - 1| ≤ 1 / 10000 + 1 / 1000 * |(1 : ℚ)|) := by
  have hc : cdiv 3 2 = 2 := by norm_num [cdiv]
  refine ⟨?_, ?_, by norm_num [abs_le]⟩
  · unfold flashatt_kernel_row
    rw [hc, flash_state_two E hE]
  · unfold flashatt_spec
    simp [-Finset.sum_boole, zerosB, onesB, tileMax, Finset.sum_range_succ, hE]

/-- Witness for C2: the exponential model `E = const 1` (which satisfies
`E 0 = 1`) exhibits the divergence concretely. -/
theorem flashatt_nondividing_chunk_bug_witness :
    ((fun _ : ℚ => (1 : ℚ)) 0 = 1) ∧
      flashatt_kernel_row (fun _ => 1) zerosB onesB onesB 1 3 2 0 = 3 / 4 ∧
      flashatt_spec (fun _ => 1) zerosB onesB onesB 3 0 = 1 :=
  ⟨rfl, (flashatt_nondividing_chunk_bug (fun _ => 1) rfl).1,
    (flashatt_nondividing_chunk_bug (fun _ => 1) rfl).2.1⟩

/-- C3: in the flash-attention kernel the score-tile positions outside the
valid range do NOT hold `-infinity` before the exponential: on the same
all-zero-score input, the masked lane `l = 1` of chunk `c = 1` (global
position `3 ≥ T = 3`) holds the score `0` (product of the fill values),
its exponential term is `E(0 - new_max) = 1`, and it is counted: the
running sum after both chunks is `4`, whereas the three valid positions
contribute only `3`. -/
theorem flashatt_masked_scores_not_neg_inf (E : ℚ → ℚ) (hE : E 0 = 1) :
    flash_qk zerosB onesB 1 3 2 0 1 1 = 0 ∧
    E (flash_qk zerosB onesB 1 3 2 0 1 1 - 0) = 1 ∧
    (flash_state E zerosB onesB onesB 1 3 2 0 2).2.1 = 4 ∧
    (∑ j ∈ Finset.range 3, E (zerosB 0 * onesB j - 0)) = 3 ∧
    ¬ ((4 : ℚ) = 3) := by
  have hqk : flash_qk zerosB onesB 1 3 2 0 1 1 = 0 := by
    simp [flash_qk, mload, zerosB]
  refine ⟨hqk, ?_, ?_, ?_, by norm_num⟩
  · rw [hqk]
    simpa using hE
  · rw [flash_state_two E hE]
  · simp [zerosB, onesB, Finset.sum_range_succ, hE]

/-- Witness for C3: instantiated at the exponential model `E = const 1`. -/
theorem flashatt_masked_scores_not_neg_inf_witness :
    ((fun _ : ℚ => (1 : ℚ)) 0 = 1) ∧
      flash_qk zerosB onesB 1 3 2 0 1 1 = 0 ∧
      (flash_state (fun _ => 1) zerosB onesB onesB 1 3 2 0 2).2.1 = 4 :=
  ⟨rfl, (flashatt_masked_scores_not_neg_inf (fun _ => 1) rfl).1,
    (flashatt_masked_scores_not_neg_inf (fun _ => 1) rfl).2.2.1⟩

theorem softmax_state_one (E : ℚ → ℚ) (hE : E 0 = 1) :
    softmax_state E zerosB 1 3 2 0 1 = (some 0, 2) := by
  simp [-Finset.sum_boole, softmax_state, softmax_step, mload, zerosB,
    tileMax, fmax, fexpSub, Finset.sum_range_succ, hE]

theorem softmax_state_two (E : ℚ → ℚ) (hE : E 0 = 1) :
    softmax_state E zerosB 1 3 2 0 2 = (some 0, 4) := by
  have h1 := softmax_state_one E hE
  show softmax_step E zerosB 1 3 2 0 (softmax_state E zerosB 1 3 2 0 1) 1 = _
  rw [h1]
  simp [-Finset.sum_boole, softmax_step, mload, zerosB,
    tileMax, fmax, fexpSub, Finset.sum_range_succ, hE]
  norm_num

/-- C4: the online-softmax kernel's output rows do NOT sum to 1 for every
chunk size: with `T = 3`, `B1 = 2` and the all-zero row, the masked lane
of the second chunk adds a spurious `E(0 - max) = 1` to the running sum
(`4` instead of `3`), so each output element is `1/4` and the row sums to
`3/4`, not `1`.  This holds for every model `E` of the exponential with
`E 0 = 1`, in particular the code's `t ↦ exp2(log2_e * t)`. -/
theorem softmax_row_sum_bug (E : ℚ → ℚ) (hE : E 0 = 1) :
    (∑ j ∈ Finset.range 3, softmax_kernel_out E zerosB 1 3 2 0 j) = 3 / 4 ∧
    ¬ ((3 : ℚ) / 4 = 1) := by
  have hc : cdiv 3 2 = 2 := by norm_num [cdiv]
  refine ⟨?_, by norm_num⟩
  simp only [softmax_kernel_out, hc, softmax_state_two E hE]
  simp [-Finset.sum_boole, mload, zerosB, Finset.sum_range_succ, hE]
  norm_num

/-- Witness for C4: instantiated at the exponential model `E = const 1`. -/
theorem softmax_row_sum_bug_witness :
    ((fun _ : ℚ => (1 : ℚ)) 0 = 1) ∧
      (∑ j ∈ Finset.range 3, softmax_kernel_out (fun _ => 1) zerosB 1 3 2 0 j) = 3 / 4 :=
  ⟨rfl, (softmax_row_sum_bug (fun _ => 1) rfl).1⟩

end Puzzles
